import Mathlib

/-!
Verification of the deviantart extractor (`gallery_dl/extractor/deviantart.py`)
against its natural-language specification.  The Python module is shallowly
embedded: dictionaries become structures with optional fields, generators
become functions producing message lists, raised exceptions become `Option`
or `Except` results, and the shared mutable record dictionary is modelled by
numbered references carried in the messages together with the final state of
every record.
-/

set_option autoImplicit false

namespace Deviantart

/-- The author mapping of a deviation record
(`{"username": ..., "userid": ..., "usericon": ..., "type": ...}`). -/
structure Author where
  username : String
  userid : String
  usericon : String
  type : String
deriving DecidableEq, Repr

/-- The placeholder author synthesized in `DeviantartExtractor.items` for a
record with no `author` field. -/
def emptyAuthor : Author := ⟨"", "", "", ""⟩

/-- A payload mapping (`deviation["content"]`, an element of
`deviation["videos"]`, or `deviation["flash"]`): carries a source URL and,
for video renditions, a quality string. -/
structure Target where
  src : String := ""
  quality : String := ""
deriving DecidableEq, Repr

/-- The result of `text.nameext_from_url`: a copy of a payload mapping with
`filename` and `extension` filled in. -/
structure CTarget where
  src : String
  quality : String
  filename : String
  extension : String
deriving DecidableEq, Repr

/-- The value stored under `deviation["index"]` by `prepare`: the substring
after the last `-` of the url (a Python `str`) or the Python `int` `0`. -/
inductive IndexVal where
  | str (s : String)
  | int (n : Nat)
deriving DecidableEq, Repr

/-- A deviation record: a semi-structured mapping whose optional fields model
key presence in the Python dictionary. -/
structure Deviation where
  deviationid : String := ""
  title : String := ""
  url : Option String := none
  author : Option Author := none
  content : Option Target := none
  videos : Option (List Target) := none
  flash : Option Target := none
  excerpt : Option String := none
  html : Option String := none
  stats : Option String := none
  preview : Option String := none
  thumbs : Option String := none
  index : Option IndexVal := none
  target : Option CTarget := none
  extension : Option String := none
deriving DecidableEq, Repr

/-- Result of `DeviantartAPI.deviation_content`: the full journal body
(`dev["html"]`, with `dev["css"]` optional). -/
structure JournalContent where
  html : String
  css : Option String
deriving DecidableEq, Repr

/-- Output messages of the extractor.  `directory` and `url` carry the number
of the record dictionary they reference: the Python generator yields the very
same (later still mutated) dictionary object in every message that concerns
one record, so messages hold a reference and `items` additionally returns the
final state of every record. -/
inductive Msg where
  | version (n : Nat)
  | directory (ref : Nat)
  | url (payload : String) (ref : Nat)
deriving DecidableEq, Repr

/-- Is the message a `Message.Url` message? -/
def Msg.isUrl : Msg → Bool
  | .url _ _ => true
  | _ => false

/-- Is the message a `Message.Directory` message? -/
def Msg.isDir : Msg → Bool
  | .directory _ => true
  | _ => false

/-- The record reference carried by a message (`none` for the version
message, which carries no record). -/
def msgRef : Msg → Option Nat
  | .version _ => none
  | .directory i => some i
  | .url _ i => some i

/-- Split a character list at its last occurrence of `sep`:
`splitAtLast sep l = some (a, b)` iff `l = a ++ sep :: b` with `sep ∉ b`;
`none` when `sep` does not occur.  This is the semantics of Python's
`l.rsplit(sep, 1)` (whose `[1]` raises `IndexError` in the `none` case). -/
def splitAtLast (sep : Char) : List Char → Option (List Char × List Char)
  | [] => none
  | c :: cs =>
    match splitAtLast sep cs with
    | some (a, b) => some (c :: a, b)
    | none => if c = sep then some ([], cs) else none

/-- `DeviantartExtractor.prepare`: deletes the bulky `stats`, `preview` and
`thumbs` fields and derives `index` from the record's `url`.  The Python
`try` block only catches `KeyError` (url absent → index `0`); when the url is
present but contains no `-`, `rsplit("-", 1)[1]` raises an uncaught
`IndexError`, modelled as `none`. -/
def prepare (d : Deviation) : Option Deviation :=
  match d.url with
  | none => some { d with stats := none, preview := none, thumbs := none,
                          index := some (IndexVal.int 0) }
  | some u =>
    match splitAtLast '-' u.data with
    | some (_, b) =>
      some { d with stats := none, preview := none, thumbs := none,
                    index := some (IndexVal.str (String.mk b)) }
    | none => none

/-! ## Video selection (`max(deviation["videos"], key=lambda x: int(x["quality"][:-1]))`) -/

/-- Value of a non-empty all-digit character list. -/
def digitsVal (ds : List Char) : Option Nat :=
  if ds = [] then none
  else if ds.all (fun c => c.isDigit) then
    some (ds.foldl (fun n c => n * 10 + (c.toNat - 48)) 0)
  else none

/-- Python's `int` on a string: an optional sign followed by digits;
`none` models the `ValueError` raised otherwise. -/
def pyInt : List Char → Option Int
  | '-' :: ds => (digitsVal ds).map (fun n => -(n : Int))
  | ds => (digitsVal ds).map (fun n => (n : Int))

/-- The sort key of a video rendition: Python's `int(x["quality"][:-1])`
strips exactly one trailing character and parses the rest as an integer;
`none` models the `ValueError` raised when the remainder is not numeric. -/
def qualityKey (q : String) : Option Int :=
  pyInt q.data.dropLast

/-- Inner loop of Python's `max` with a key function: keeps the current
maximum (the first one on ties, since replacement needs a strictly greater
key) and raises (`none`) as soon as the key of an element raises. -/
def selectVideoGo (best : Target) (bk : Int) : List Target → Option Target
  | [] => some best
  | v :: vs =>
    match qualityKey v.quality with
    | none => none
    | some k => if bk < k then selectVideoGo v k vs else selectVideoGo best bk vs

/-- The video rendition chosen in `DeviantartExtractor.items`:
`max(deviation["videos"], key=lambda x: int(x["quality"][:-1]))`.
`none` models the exceptions of `max` (empty sequence) and `int`. -/
def selectVideo : List Target → Option Target
  | [] => none
  | v :: vs =>
    match qualityKey v.quality with
    | none => none
    | some k => selectVideoGo v k vs

/-! ## The record pipeline (`DeviantartExtractor.items`) -/

/-- Modelled from the spec: `text.escape` (module `text` is not among the
sources) — HTML-escapes a string before it is interpolated into the journal
document template ("title = escaped record title"). -/
def escape (s : String) : String :=
  s.data.foldr
    (fun c acc =>
      (match c with
       | '&' => "&amp;"
       | '<' => "&lt;"
       | '>' => "&gt;"
       | _ => String.singleton c) ++ acc) ""

/-- Modelled from the spec: `text.nameext_from_url` (module `text` is not
among the sources) — fills a copy of the payload mapping with the filename
and extension parsed from the payload's source URL ("filename/extension
parsed from the payload's source URL"). -/
def nameext_from_url (url : String) (t : Target) : CTarget :=
  let base : List Char :=
    match splitAtLast '/' url.data with
    | some (_, b) => b
    | none => url.data
  match splitAtLast '.' base with
  | some (f, e) => ⟨t.src, t.quality, String.mk f, String.mk e⟩
  | none => ⟨t.src, t.quality, String.mk base, ""⟩

/-- `DeviantartExtractor.commit`: stores `text.nameext_from_url(url, target.copy())`
under `deviation["target"]`, copies its extension to `deviation["extension"]`
and returns the `Message.Url` message (payload `target["src"]`, record
reference `i`). -/
def commit (i : Nat) (d : Deviation) (t : Target) : Deviation × Msg :=
  let ct := nameext_from_url t.src t
  ({ d with target := some ct, extension := some ct.extension }, Msg.url t.src i)

/-- `JOURNAL_TEMPLATE` up to the `{title}` placeholder (the `text://` scheme
marking the payload as an inline document is split off separately). -/
def journalHead1 : String :=
  "<!DOCTYPE html>\n<html>\n<head>\n    <meta charset=\"utf-8\">\n    <title>"

/-- `JOURNAL_TEMPLATE` between the `{title}` and `{css}` placeholders. -/
def journalHead2 : String :=
  "</title>\n    <link rel=\"stylesheet\" href=\"http://st.deviantart.net/css/deviantart-network_lc.css?3843780832\">\n    <link rel=\"stylesheet\" href=\"http://st.deviantart.net/css/group_secrets_lc.css?3250492874\">\n    <link rel=\"stylesheet\" href=\"http://st.deviantart.net/css/v6core_lc.css?4246581581\">\n    <link rel=\"stylesheet\" href=\"http://st.deviantart.net/css/sidebar_lc.css?1490570941\">\n    <link rel=\"stylesheet\" href=\"http://st.deviantart.net/css/writer_lc.css?3090682151\">\n    <link rel=\"stylesheet\" href=\"http://st.deviantart.net/css/v6loggedin_lc.css?3001430805\">\n    <style>"

/-- `JOURNAL_TEMPLATE` between the `{css}` and `{html}` placeholders. -/
def journalHead3 : String :=
  "</style>\n    <link rel=\"stylesheet\" href=\"http://st.deviantart.net/roses/cssmin/core.css?1488405371919\" >\n    <link rel=\"stylesheet\" href=\"http://st.deviantart.net/roses/cssmin/peeky.css?1487067424177\" >\n    <link rel=\"stylesheet\" href=\"http://st.deviantart.net/roses/cssmin/desktop.css?1491362542749\" >\n</head>\n<body id=\"deviantART-v7\" class=\"bubble no-apps loggedout w960 deviantart\">\n    <div id=\"output\">\n    <div class=\"dev-page-container bubbleview\">\n    <div class=\"dev-page-view view-mode-normal\">\n    <div class=\"dev-view-main-content\">\n    <div class=\"dev-view-deviation\">\n    <div class=\"journal-wrapper tt-a\">\n    <div class=\"journal-wrapper2\">\n    <div class=\"journal withskin\">\n    "

/-- `JOURNAL_TEMPLATE` after the `{html}` placeholder. -/
def journalTail : String :=
  "\n    </div>\n    </div>\n    </div>\n    </div>\n    </div>\n    </div>\n    </div>\n    </div>\n</body>\n</html>\n"

/-- `JOURNAL_TEMPLATE.format(title=..., html=..., css=...)`: the synthesized
inline document (note the leading `text://` scheme — not a remote URL). -/
def journalFormat (title html css : String) : String :=
  "text://" ++ (journalHead1 ++ (title ++ (journalHead2 ++ (css ++
    (journalHead3 ++ (html ++ journalTail))))))

/-- The `try: author = deviation["author"] / except KeyError:` block of
`items`: resolves the comparison value (the raw mapping, `None` when absent)
and stores the synthesized placeholder in the record when absent. -/
def resolveAuthor (d : Deviation) : Option Author × Deviation :=
  match d.author with
  | some a => (some a, d)
  | none => (none, { d with author := some emptyAuthor })

/-- The `if "content" in deviation:` branch of `items`. -/
def contentStep (i : Nat) (d : Deviation) : List Msg × Deviation :=
  match d.content with
  | some t => ([(commit i d t).2], (commit i d t).1)
  | none => ([], d)

/-- The `if "videos" in deviation:` branch of `items`; `none` models the
exception raised by `max`/`int` on an empty list or an unparsable quality. -/
def videosStep (i : Nat) (d : Deviation) : Option (List Msg × Deviation) :=
  match d.videos with
  | some vs =>
    match selectVideo vs with
    | some v => some ([(commit i d v).2], (commit i d v).1)
    | none => none
  | none => some ([], d)

/-- The `if "flash" in deviation:` branch of `items`. -/
def flashStep (i : Nat) (d : Deviation) : List Msg × Deviation :=
  match d.flash with
  | some t => ([(commit i d t).2], (commit i d t).1)
  | none => ([], d)

/-- The `if "excerpt" in deviation:` branch of `items`: fetches the journal
body via `api.deviation_content`, sets the fixed text-document extension and
yields one `Message.Url` whose payload is the formatted inline document.
The fetch is a parameter (`fetch`) mapping the deviation id to the fetched
content; a successful fetch is assumed. -/
def excerptStep (fetch : String → JournalContent) (i : Nat) (d : Deviation) :
    List Msg × Deviation :=
  match d.excerpt with
  | some _ =>
    ([Msg.url (journalFormat (escape d.title) (fetch d.deviationid).html
        ((fetch d.deviationid).css.getD "")) i],
     { d with extension := some "htm" })
  | none => ([], d)

/-- The payload branches of the loop body in source order: content, videos,
flash, excerpt (a bare `html` field is only logged and yields nothing). -/
def payloadSteps (fetch : String → JournalContent) (i : Nat) (d : Deviation) :
    Option (List Msg × Deviation) :=
  match videosStep i (contentStep i d).2 with
  | none => none
  | some v =>
    some ((contentStep i d).1 ++ (v.1 ++ ((flashStep i v.2).1 ++
            (excerptStep fetch i (flashStep i v.2).2).1)),
          (excerptStep fetch i (flashStep i v.2).2).2)

/-- One iteration of the `for deviation in self.deviations():` loop of
`DeviantartExtractor.items` for the record number `i`: prepare, resolve the
author, emit a `Message.Directory` on an author change (updating
`last_author`), then the payload branches.  Returns the emitted messages,
the final state of the record and the updated `last_author`; `none` models
an uncaught exception. -/
def runRecord (fetch : String → JournalContent) (i : Nat) (lastA : Option Author)
    (d : Deviation) : Option (List Msg × Deviation × Option Author) :=
  match prepare d with
  | none => none
  | some d1 =>
    match payloadSteps fetch i (resolveAuthor d1).2 with
    | none => none
    | some p =>
      if (resolveAuthor d1).1 = lastA then some (p.1, p.2, lastA)
      else some (Msg.directory i :: p.1, p.2, (resolveAuthor d1).1)

/-- The record loop of `items` starting at record number `i` with the given
`last_author` state: returns all messages, the final state of every record
(in input order) and the final `last_author`. -/
def itemsGo (fetch : String → JournalContent) :
    Nat → Option Author → List Deviation →
    Option (List Msg × List Deviation × Option Author)
  | _, lastA, [] => some ([], [], lastA)
  | i, lastA, d :: ds =>
    match runRecord fetch i lastA d with
    | none => none
    | some (ms, d', lastA') =>
      match itemsGo fetch (i + 1) lastA' ds with
      | none => none
      | some (ms', ds', lastA'') => some (ms ++ ms', d' :: ds', lastA'')

/-- `DeviantartExtractor.items` over a record sequence: the leading
`Message.Version` followed by the messages of every record; also returns the
final state of the record dictionaries the messages reference. -/
def items (fetch : String → JournalContent) (ds : List Deviation) :
    Option (List Msg × List Deviation) :=
  (itemsGo fetch 0 none ds).map (fun r => (Msg.version 1 :: r.1, r.2.1))

/-- The `last_author` value after processing a record list, starting from a
given value: the `author` field of the last record (absent = `none`), or the
start value for an empty list. -/
def runningAuthor (la : Option Author) (l : List Deviation) : Option Author :=
  l.foldl (fun _ d => d.author) la

/-- A journal-content fetch returning an empty body: used to instantiate the
pipeline on concrete inputs without journal records. -/
def fetch0 : String → JournalContent := fun _ => ⟨"", none⟩

/-- Concrete record: author alice, one image payload. -/
def devAlice : Deviation :=
  { author := some ⟨"alice", "1", "", ""⟩, content := some { src := "s/a.jpg" } }

/-- Concrete record: author bob, one image payload. -/
def devBob1 : Deviation :=
  { author := some ⟨"bob", "2", "", ""⟩, content := some { src := "s/b.jpg" } }

/-- Concrete record: author bob again, another image payload. -/
def devBob2 : Deviation :=
  { author := some ⟨"bob", "2", "", ""⟩, content := some { src := "s/c.jpg" } }

/-- Concrete record: no author field, one image payload. -/
def devAnon : Deviation := { content := some { src := "s/x.jpg" } }

/-- Concrete journal-only record for the C8 witness. -/
def devJournal : Deviation :=
  { deviationid := "dj", title := "A <T>", author := some ⟨"u", "1", "", ""⟩,
    excerpt := some "x" }

/-- Concrete journal-content fetch for the C8 witness. -/
def fetchJ : String → JournalContent := fun _ => ⟨"<p>J</p>", some "cssY"⟩

/-- Concrete record with image, video and flash payloads for the C10 witness. -/
def devMulti : Deviation :=
  { author := some ⟨"u", "1", "", ""⟩, content := some { src := "s/i.jpg" },
    videos := some [{ src := "s/v1.mp4", quality := "480p" },
                    { src := "s/v2.mp4", quality := "720p" }],
    flash := some { src := "s/f.swf" } }

/-! ## The API client (`DeviantartAPI._call` and `DeviantartAPI._pagination`) -/

/-- A parsed pagination response body: the optional `results` list, and the
`has_more` / `next_offset` keys (optional: reading an absent key raises
`KeyError`). -/
structure PageData (α : Type) where
  results : Option (List α)
  has_more : Option Bool
  next_offset : Option Nat
deriving DecidableEq, Repr

/-- The empty mapping `{}` returned by `_call` when the body is not valid
JSON: it has none of the pagination keys. -/
def emptyPage (α : Type) : PageData α := ⟨none, none, none⟩

/-- One scripted HTTP response: status code, raw body text (`response.text`)
and the parsed JSON body (`none` when `response.json()` raises
`ValueError`). -/
structure Rsp (α : Type) where
  status : Nat
  text : String
  jsonVal : Option (PageData α)
deriving DecidableEq, Repr

/-- Outcome of one `_call`: a parsed body (the empty mapping for invalid
JSON), or the fatal `Exception(response.text)` after the retry budget is
exhausted, or starvation of the response script (an artifact of the finite
test script, not a code path). -/
inductive CallOut (α : Type) where
  | ok (data : PageData α)
  | fatal (text : String)
  | starved
deriving DecidableEq, Repr

/-- The retry loop of `DeviantartAPI._call` over a scripted response list:
`tries` starts at 1; a 200 breaks and returns the body; a 429 increments the
shared `delay`; any other status resets `delay` to 1; both failure branches
then bump the single shared counter and, once `tries > 3`, raise
`Exception(response.text)` carrying the LAST response body.  Returns the
outcome, the final `delay` and the unconsumed rest of the script. -/
def callLoop (α : Type) : Nat → Nat → List (Rsp α) → CallOut α × Nat × List (Rsp α)
  | _, delay, [] => (CallOut.starved, delay, [])
  | tries, delay, r :: rest =>
    if r.status = 200 then
      (CallOut.ok (r.jsonVal.getD (emptyPage α)), delay, rest)
    else
      if tries + 1 > 3 then
        (CallOut.fatal r.text, if r.status = 429 then delay + 1 else 1, rest)
      else
        callLoop α (tries + 1) (if r.status = 429 then delay + 1 else 1) rest

/-- `DeviantartAPI._call`: the retry loop entered with `tries = 1`. -/
def call (α : Type) (delay : Nat) (rs : List (Rsp α)) :
    CallOut α × Nat × List (Rsp α) :=
  callLoop α 1 delay rs

/-- How one pagination run ends: `has_more` false (`done`), a response
without a `results` key (`softStop`: the error is logged and the generator
returns), a `KeyError` on `has_more`/`next_offset`, the fatal `_call`
exception, or script starvation. -/
inductive PagEnd where
  | done
  | softStop
  | keyError
  | fatalErr (text : String)
  | starved
deriving DecidableEq, Repr

/-- The loop of `DeviantartAPI._pagination` over a scripted response list,
fuelled (each iteration makes one `_call`, which consumes at least one
scripted response, so `rs.length` fuel suffices).  Yields every element of
each `results` list in order; when `has_more` is false it returns; when the
response has no `results` key it logs and returns (`softStop`); otherwise it
continues at `next_offset`. -/
def paginationGo (α : Type) : Nat → Nat → Nat → List (Rsp α) → List α × PagEnd
  | 0, _, _, _ => ([], PagEnd.starved)
  | fuel + 1, delay, offset, rs =>
    match call α delay rs with
    | (CallOut.starved, _, _) => ([], PagEnd.starved)
    | (CallOut.fatal t, _, _) => ([], PagEnd.fatalErr t)
    | (CallOut.ok data, delay', rest) =>
      match data.results with
      | none => ([], PagEnd.softStop)
      | some xs =>
        match data.has_more with
        | none => (xs, PagEnd.keyError)
        | some true =>
          match data.next_offset with
          | none => (xs, PagEnd.keyError)
          | some no =>
            (xs ++ (paginationGo α fuel delay' no rest).1,
             (paginationGo α fuel delay' no rest).2)
        | some false => (xs, PagEnd.done)
  termination_by fuel _ _ _ => fuel

/-- `DeviantartAPI._pagination` over a scripted response list. -/
def pagination (α : Type) (delay offset : Nat) (rs : List (Rsp α)) :
    List α × PagEnd :=
  paginationGo α rs.length delay offset rs

/-- The page a scripted response parses to (the empty mapping for invalid
JSON, as `_call` returns `{}` on `ValueError`). -/
def pageOf {α : Type} (r : Rsp α) : PageData α := r.jsonVal.getD (emptyPage α)

/-- Well-formedness of a page for the pagination contract: if it has a
`results` key it also has `has_more`, and if `has_more` is true it has
`next_offset`. -/
def wfPage {α : Type} (p : PageData α) : Prop :=
  (p.results.isSome = true → p.has_more.isSome = true) ∧
  (p.has_more = some true → p.next_offset.isSome = true)

instance {α : Type} [DecidableEq α] (p : PageData α) : Decidable (wfPage p) := by
  unfold wfPage
  infer_instance

/-- The elements the pagination contract says must be yielded: every page's
`results`, in server order, up to and including the first page that lacks
`results` or has `has_more` false. -/
def expectedYield (α : Type) : List (PageData α) → List α
  | [] => []
  | p :: ps =>
    match p.results with
    | none => []
    | some xs => if p.has_more = some true then xs ++ expectedYield α ps else xs

/-- How the pagination contract says the run must end: `softStop` at the
first page lacking `results`, `done` at the first page with `has_more`
false, starvation if the script ends with more pages expected. -/
def endOf (α : Type) : List (PageData α) → PagEnd
  | [] => PagEnd.starved
  | p :: ps =>
    match p.results with
    | none => PagEnd.softStop
    | some _ => if p.has_more = some true then endOf α ps else PagEnd.done

/-- Concrete two-page script for the C4 witness: 3 + 2 results, second page
final. -/
def pageScript : List (Rsp Nat) :=
  [⟨200, "", some ⟨some [1, 2, 3], some true, some 10⟩⟩,
   ⟨200, "", some ⟨some [4, 5], some false, none⟩⟩]

/-! ## Authentication and the token cache (`DeviantartAPI._authenticate_impl`) -/

/-- The token-endpoint response used by `_authenticate_impl`. -/
structure AuthResponse where
  status : Nat
  access_token : String
deriving DecidableEq, Repr

/-- `exception.AuthenticationError` raised on a non-200 token response. -/
inductive AuthErr where
  | authenticationError
deriving DecidableEq, Repr

/-- The body of `DeviantartAPI._authenticate_impl` (without its cache
decorator): posts the credentials and returns `"Bearer " + access_token`, or
raises `AuthenticationError` on a non-200 status. -/
def authenticate_impl (resp : AuthResponse) : Except AuthErr String :=
  if resp.status ≠ 200 then Except.error AuthErr.authenticationError
  else Except.ok ("Bearer " ++ resp.access_token)

/-- The token cache state: per cache key, the cached value and its issuance
time (seconds). -/
structure TokenCache where
  entries : List (String × String × Nat)
deriving DecidableEq, Repr

/-- Look up a cache key. -/
def TokenCache.lookup (c : TokenCache) (k : String) : Option (String × Nat) :=
  (c.entries.find? (fun e => e.1 = k)).map (fun e => e.2)

/-- Store a value for a key (replacing any previous entry). -/
def TokenCache.store (c : TokenCache) (k v : String) (now : Nat) : TokenCache :=
  ⟨(k, v, now) :: c.entries.filter (fun e => ¬e.1 = k)⟩

/-- Modelled from the spec: the `@cache(maxage=3600, keyarg=1)` decorator on
`_authenticate_impl` (module `cache` is not among the sources) — "Returns a
cached token if one exists for the exact key and has not exceeded its TTL
(3600 seconds from issuance); otherwise performs a token request and caches
the result", the key being the client id (`keyarg=1`).  The boolean records
whether a fresh token request was performed. -/
def cachedAuthenticate (c : TokenCache) (clientId : String) (now : Nat)
    (resp : AuthResponse) : Except AuthErr (String × TokenCache × Bool) :=
  match c.lookup clientId with
  | some (v, issued) =>
    if now ≤ issued + 3600 then Except.ok (v, c, false)
    else
      match authenticate_impl resp with
      | Except.error e => Except.error e
      | Except.ok t => Except.ok (t, c.store clientId t now, true)
  | none =>
    match authenticate_impl resp with
    | Except.error e => Except.error e
    | Except.ok t => Except.ok (t, c.store clientId t now, true)

/-! ## Favorites folder selection (`DeviantartFavoriteExtractor.deviations`) -/

/-- A collection folder as returned by `collections_folders`. -/
structure Folder where
  name : String
  folderid : String
deriving DecidableEq, Repr

/-- The collection descriptor attached to every record of a favorites run. -/
structure Collection where
  owner : String
  title : String
  index : String
deriving DecidableEq, Repr

/-- One token of the compiled folder pattern:
`re.compile(favname.replace("-", ".") + "$")`.  A literal hyphen becomes the
regex `.` — as does a literal dot — matching any single character except a
newline; every other (plain) character matches itself. -/
inductive PatTok where
  | lit (c : Char)
  | any
deriving DecidableEq, Repr

/-- Compile the favorite-folder name into pattern tokens, mirroring
`favname.replace("-", ".")` under Python regex semantics (both `-`→`.` and a
pre-existing `.` are wildcards).  Faithful for names made of plain
(non-metacharacter) characters and hyphens. -/
def compileFav (favname : String) : List PatTok :=
  favname.data.map (fun c => if c = '-' ∨ c = '.' then PatTok.any else PatTok.lit c)

/-- `re.match` of the compiled tokens followed by `$` against a folder name:
matching is anchored at the start, each token consumes one character (`any`
matches every character except a newline), and the final `$` matches at the
end of the string or just before a single trailing newline. -/
def matchToks : List PatTok → List Char → Bool
  | [], rest => rest = [] ∨ rest = ['\n']
  | _ :: _, [] => false
  | t :: ts, c :: cs =>
    (match t with
     | PatTok.any => ¬c = '\n'
     | PatTok.lit l => c = l) && matchToks ts cs

/-- Does a folder's name match the compiled pattern of the target name? -/
def favMatches (favname : String) (f : Folder) : Bool :=
  matchToks (compileFav favname) f.name.data

/-- `DeviantartFavoriteExtractor.deviations`: scans the user's collection
folders for the first whose name matches the compiled pattern; on a match
it sets the shared collection descriptor's `title` to the matched folder's
actual name and paginates that folder (represented by returning the updated
descriptor and the folder id); with no match it raises
`NotFoundError("collection")`. -/
def favDeviations (favname : String) (coll : Collection) (folders : List Folder) :
    Except String (Collection × String) :=
  match folders.find? (fun f => favMatches favname f) with
  | some f => Except.ok ({ coll with title := f.name }, f.folderid)
  | none => Except.error "collection"

/-- A plain pattern character: not a regex metacharacter and not a hyphen
(the only characters for which the embedding of `re` is claimed faithful,
plus the hyphen wildcard). -/
def plainChar (c : Char) : Prop :=
  c.isAlphanum = true ∨ c = ' ' ∨ c = '_'

instance (c : Char) : Decidable (plainChar c) := by
  unfold plainChar
  infer_instance

/-- Concrete folder list for the C7 witness: the second folder is the first
match for the target "Use-ful" (the hyphen matching the `X`). -/
def favFolders : List Folder :=
  [⟨"Nothing", "f0"⟩, ⟨"UseXful", "f1"⟩, ⟨"Usewful", "f2"⟩]

/-- Concrete shared collection descriptor for the C7 witness. -/
def favColl : Collection := ⟨"rosuuri", "Use-ful", "58951174"⟩

theorem splitAtLast_of_not_mem {sep : Char} {l : List Char} (h : sep ∉ l) :
    splitAtLast sep l = none := by
  induction l with
  | nil => rfl
  | cons c cs ih =>
    have hc : ¬c = sep := fun hcs => h (hcs ▸ List.mem_cons_self c cs)
    have hcs : sep ∉ cs := fun hm => h (List.mem_cons_of_mem _ hm)
    simp [splitAtLast, ih hcs, hc]

theorem splitAtLast_append {sep : Char} (a : List Char) {b : List Char}
    (hb : sep ∉ b) : splitAtLast sep (a ++ sep :: b) = some (a, b) := by
  induction a with
  | nil =>
    simp [splitAtLast, splitAtLast_of_not_mem hb]
  | cons c cs ih =>
    simp [splitAtLast, ih]

/-- C3 (corrected): `prepare` sets `index` to the substring after the last
hyphen of `url` (numeric or not), to the integer `0` when `url` is absent,
and raises (returns `none`) when `url` is present but contains no hyphen —
the `except KeyError` clause does not catch that `IndexError`. -/
theorem claim3_prepare_index (d : Deviation) :
    (d.url = none →
      prepare d = some { d with stats := none, preview := none, thumbs := none,
                                index := some (IndexVal.int 0) }) ∧
    (∀ u : String, ∀ a b : List Char, d.url = some u → u.data = a ++ '-' :: b →
      '-' ∉ b →
      prepare d = some { d with stats := none, preview := none, thumbs := none,
                                index := some (IndexVal.str (String.mk b)) }) ∧
    (∀ u : String, d.url = some u → '-' ∉ u.data → prepare d = none) := by
  refine ⟨fun h => ?_, fun u a b hu hdata hb => ?_, fun u hu hnm => ?_⟩
  · simp [prepare, h]
  · simp [prepare, hu, hdata, splitAtLast_append a hb]
  · simp [prepare, hu, splitAtLast_of_not_mem hnm]

/-- C3 counterexample: a record whose url is present but has no hyphen makes
`prepare` raise `IndexError` (modelled `none`), contradicting "normalization
never raises" and "index … 0 whenever that segment is unparsable". -/
theorem claim3_counterexample :
    prepare { url := some "nohyphen" } = none := by decide

/-- C3 witness: the corrected statement evaluated on concrete records. -/
theorem claim3_witness :
    prepare { url := none, title := "t" } =
      some { url := none, title := "t", index := some (IndexVal.int 0) } ∧
    prepare { url := some "https://x/art/a-77" } =
      some { url := some "https://x/art/a-77",
             index := some (IndexVal.str "77") } ∧
    prepare { url := some "nodash" } = none := by
  refine ⟨(claim3_prepare_index _).1 rfl, ?_, (claim3_prepare_index _).2.2 "nodash" rfl (by decide)⟩
  exact (claim3_prepare_index _).2.1 "https://x/art/a-77"
    ("https://x/art/a".data) ("77".data) rfl (by decide) (by decide)

theorem selectVideoGo_spec (vs : List Target) (best : Target) (bk : Int)
    (hbest : qualityKey best.quality = some bk)
    (hok : ∀ t ∈ vs, (qualityKey t.quality).isSome) :
    ∃ w kw, selectVideoGo best bk vs = some w ∧ (w = best ∨ w ∈ vs) ∧
      qualityKey w.quality = some kw ∧ bk ≤ kw ∧
      ∀ t ∈ vs, ∀ kt, qualityKey t.quality = some kt → kt ≤ kw := by
  induction vs generalizing best bk with
  | nil => exact ⟨best, bk, rfl, Or.inl rfl, hbest, le_refl _, by simp⟩
  | cons v vs ih =>
    have hv : (qualityKey v.quality).isSome := hok v (List.mem_cons_self v vs)
    obtain ⟨k, hk⟩ := Option.isSome_iff_exists.mp hv
    have hok' : ∀ t ∈ vs, (qualityKey t.quality).isSome :=
      fun t ht => hok t (List.mem_cons_of_mem _ ht)
    by_cases hlt : bk < k
    · obtain ⟨w, kw, hw, hmem, hkw, hle, hmax⟩ := ih v k hk hok'
      refine ⟨w, kw, ?_, ?_, hkw, ?_, ?_⟩
      · simp [selectVideoGo, hk, hlt, hw]
      · rcases hmem with h | h
        · exact Or.inr (h ▸ List.mem_cons_self v vs)
        · exact Or.inr (List.mem_cons_of_mem _ h)
      · exact le_of_lt (lt_of_lt_of_le hlt hle)
      · intro t ht kt hkt
        rcases List.mem_cons.mp ht with h | h
        · exact (by rw [h, hk] at hkt; injection hkt with h2; omega : kt ≤ kw)
        · exact hmax t h kt hkt
    · obtain ⟨w, kw, hw, hmem, hkw, hle, hmax⟩ := ih best bk hbest hok'
      refine ⟨w, kw, ?_, ?_, hkw, hle, ?_⟩
      · simp [selectVideoGo, hk, hlt, hw]
      · rcases hmem with h | h
        · exact Or.inl h
        · exact Or.inr (List.mem_cons_of_mem _ h)
      · intro t ht kt hkt
        rcases List.mem_cons.mp ht with h | h
        · rw [h, hk] at hkt; injection hkt with h2; omega
        · exact hmax t h kt hkt

/-- C5 (corrected): for a non-empty rendition list whose quality strings
parse as an integer after stripping exactly ONE trailing character, the
selected rendition carries the numerically largest stripped value.  (The
original claim's "non-digit unit suffix" of arbitrary length is refuted by
the counterexample: `[:-1]` strips a single character only.) -/
theorem claim5_video_selection (vs : List Target) (hne : vs ≠ [])
    (hok : ∀ t ∈ vs, (qualityKey t.quality).isSome) :
    ∃ w kw, selectVideo vs = some w ∧ w ∈ vs ∧
      qualityKey w.quality = some kw ∧
      ∀ t ∈ vs, ∀ kt, qualityKey t.quality = some kt → kt ≤ kw := by
  match vs, hne with
  | v :: vs, _ =>
    have hv : (qualityKey v.quality).isSome := hok v (List.mem_cons_self v vs)
    obtain ⟨k, hk⟩ := Option.isSome_iff_exists.mp hv
    obtain ⟨w, kw, hw, hmem, hkw, _, hmax⟩ :=
      selectVideoGo_spec vs v k hk (fun t ht => hok t (List.mem_cons_of_mem _ ht))
    refine ⟨w, kw, ?_, ?_, hkw, ?_⟩
    · simp [selectVideo, hk, hw]
    · rcases hmem with h | h
      · exact h ▸ List.mem_cons_self v vs
      · exact List.mem_cons_of_mem _ h
    · intro t ht kt hkt
      rcases List.mem_cons.mp ht with h | h
      · rw [h, hk] at hkt; injection hkt with h2; omega
      · exact hmax t h kt hkt

/-- C5 counterexample: a rendition whose quality string has the
multi-character unit suffix `fps` (numeric prefix `30`, non-digit suffix) is
NOT selected — `int("30fp")` raises, so `max` raises (modelled `none`)
instead of returning the unique rendition. -/
theorem claim5_counterexample :
    selectVideo [{ src := "s", quality := "30fps" }] ≠
      some { src := "s", quality := "30fps" } := by decide

/-- C5 witness: among quality strings 480p, 720p, 1080p the 1080p rendition
is selected. -/
theorem claim5_witness :
    ∃ w kw,
      selectVideo [{ src := "a", quality := "480p" }, { src := "b", quality := "720p" },
        { src := "c", quality := "1080p" }] = some w ∧
      w ∈ [({ src := "a", quality := "480p" } : Target), { src := "b", quality := "720p" },
        { src := "c", quality := "1080p" }] ∧
      qualityKey w.quality = some kw ∧
      ∀ t ∈ [({ src := "a", quality := "480p" } : Target), { src := "b", quality := "720p" },
        { src := "c", quality := "1080p" }],
        ∀ kt, qualityKey t.quality = some kt → kt ≤ kw :=
  claim5_video_selection _ (by decide) (by decide)

/-! ## Structural lemmas about the pipeline -/

theorem prepare_shape {d d' : Deviation} (h : prepare d = some d') :
    ∃ iv, d' = { d with stats := none, preview := none, thumbs := none,
                        index := some iv } := by
  unfold prepare at h
  split at h
  · exact ⟨IndexVal.int 0, ((Option.some.injEq _ _).mp h).symm⟩
  · split at h
    · exact ⟨_, ((Option.some.injEq _ _).mp h).symm⟩
    · cases h

theorem resolveAuthor_fst (d : Deviation) : (resolveAuthor d).1 = d.author := by
  unfold resolveAuthor
  cases d.author <;> simp

theorem resolveAuthor_snd_author (d : Deviation) :
    (resolveAuthor d).2.author = some (d.author.getD emptyAuthor) := by
  unfold resolveAuthor
  cases h : d.author <;> simp [h]

theorem contentStep_spec (i : Nat) (d : Deviation) :
    (∀ m ∈ (contentStep i d).1, m.isUrl = true ∧ msgRef m = some i) ∧
    (contentStep i d).2.author = d.author := by
  unfold contentStep
  cases hc : d.content <;> simp [commit, Msg.isUrl, msgRef]

theorem flashStep_spec (i : Nat) (d : Deviation) :
    (∀ m ∈ (flashStep i d).1, m.isUrl = true ∧ msgRef m = some i) ∧
    (flashStep i d).2.author = d.author := by
  unfold flashStep
  cases hc : d.flash <;> simp [commit, Msg.isUrl, msgRef]

theorem excerptStep_spec (fetch : String → JournalContent) (i : Nat) (d : Deviation) :
    (∀ m ∈ (excerptStep fetch i d).1, m.isUrl = true ∧ msgRef m = some i) ∧
    (excerptStep fetch i d).2.author = d.author := by
  unfold excerptStep
  cases hc : d.excerpt <;> simp [Msg.isUrl, msgRef]

theorem videosStep_spec {i : Nat} {d : Deviation} {ms : List Msg} {d' : Deviation}
    (h : videosStep i d = some (ms, d')) :
    (∀ m ∈ ms, m.isUrl = true ∧ msgRef m = some i) ∧ d'.author = d.author := by
  unfold videosStep at h
  split at h
  · split at h
    · simp only [Option.some.injEq, Prod.mk.injEq] at h
      obtain ⟨rfl, rfl⟩ := h
      simp [commit, Msg.isUrl, msgRef]
    · cases h
  · simp only [Option.some.injEq, Prod.mk.injEq] at h
    obtain ⟨rfl, rfl⟩ := h
    simp

theorem payloadSteps_spec {fetch : String → JournalContent} {i : Nat}
    {d : Deviation} {ms : List Msg} {d' : Deviation}
    (h : payloadSteps fetch i d = some (ms, d')) :
    (∀ m ∈ ms, m.isUrl = true ∧ msgRef m = some i) ∧ d'.author = d.author := by
  unfold payloadSteps at h
  split at h
  · cases h
  case h_2 vp hv =>
    simp only [Option.some.injEq, Prod.mk.injEq] at h
    obtain ⟨rfl, rfl⟩ := h
    obtain ⟨hc, hca⟩ := contentStep_spec i d
    obtain ⟨hvm, hva⟩ := videosStep_spec hv
    obtain ⟨hf, hfa⟩ := flashStep_spec i vp.2
    obtain ⟨he, hea⟩ := excerptStep_spec fetch i (flashStep i vp.2).2
    constructor
    · intro m hm
      rcases List.mem_append.mp hm with h1 | h1
      · exact hc m h1
      rcases List.mem_append.mp h1 with h2 | h2
      · exact hvm m h2
      rcases List.mem_append.mp h2 with h3 | h3
      · exact hf m h3
      · exact he m h3
    · rw [hea, hfa, hva, hca]

theorem runRecord_spec {fetch : String → JournalContent} {i : Nat}
    {lastA : Option Author} {d : Deviation} {ms : List Msg} {d' : Deviation}
    {la' : Option Author}
    (h : runRecord fetch i lastA d = some (ms, d', la')) :
    la' = d.author ∧
    (∀ m ∈ ms, ∃ r, msgRef m = some r ∧ r = i) ∧
    (d.author = lastA → ∀ m ∈ ms, m.isUrl = true) ∧
    (d.author ≠ lastA → ∃ urls, ms = Msg.directory i :: urls ∧
      ∀ m ∈ urls, m.isUrl = true) ∧
    (d.author = none → d'.author = some emptyAuthor) := by
  unfold runRecord at h
  split at h
  · cases h
  case h_2 d1 hprep =>
    have hauth : d1.author = d.author := by
      obtain ⟨iv, rfl⟩ := prepare_shape hprep
      rfl
    split at h
    · cases h
    case h_2 p hps =>
      obtain ⟨hpm, hpa⟩ := payloadSteps_spec hps
      have hra : (resolveAuthor d1).1 = d.author := by
        rw [resolveAuthor_fst, hauth]
      have hd'a : p.2.author = some (d.author.getD emptyAuthor) := by
        rw [hpa, resolveAuthor_snd_author, hauth]
      rw [hra] at h
      by_cases hcond : d.author = lastA
      · rw [if_pos hcond] at h
        simp only [Option.some.injEq, Prod.mk.injEq] at h
        obtain ⟨rfl, rfl, rfl⟩ := h
        exact ⟨hcond.symm, fun m hm => ⟨i, (hpm m hm).2, rfl⟩,
          fun _ m hm => (hpm m hm).1, fun hne => absurd hcond hne,
          fun hn => by rw [hd'a, hn]; rfl⟩
      · rw [if_neg hcond] at h
        simp only [Option.some.injEq, Prod.mk.injEq] at h
        obtain ⟨rfl, rfl, rfl⟩ := h
        refine ⟨rfl, ?_, fun heq => absurd heq hcond,
          fun _ => ⟨p.1, rfl, fun m hm => (hpm m hm).1⟩,
          fun hn => by rw [hd'a, hn]; rfl⟩
        intro m hm
        rcases List.mem_cons.mp hm with h1 | h1
        · exact ⟨i, by rw [h1]; rfl, rfl⟩
        · exact ⟨i, (hpm m h1).2, rfl⟩

theorem itemsGo_append {fetch : String → JournalContent} (xs : List Deviation)
    {ys : List Deviation} {i : Nat} {la : Option Author} {ms : List Msg}
    {st : List Deviation} {la2 : Option Author}
    (h : itemsGo fetch i la (xs ++ ys) = some (ms, st, la2)) :
    ∃ mx sx la1 my sy, itemsGo fetch i la xs = some (mx, sx, la1) ∧
      itemsGo fetch (i + xs.length) la1 ys = some (my, sy, la2) ∧
      ms = mx ++ my ∧ st = sx ++ sy := by
  induction xs generalizing i la ms st with
  | nil =>
    exact ⟨[], [], la, ms, st, rfl, by simpa using h, by simp, by simp⟩
  | cons d ds ih =>
    rw [List.cons_append] at h
    simp only [itemsGo] at h
    split at h
    · cases h
    case h_2 ms0 d0 la0 hr =>
      split at h
      · cases h
      case h_2 ms1 ds1 la1x hgo =>
        simp only [Option.some.injEq, Prod.mk.injEq] at h
        obtain ⟨rfl, rfl, rfl⟩ := h
        obtain ⟨mx, sx, la1, my, sy, h1, h2, rfl, rfl⟩ := ih hgo
        refine ⟨ms0 ++ mx, d0 :: sx, la1, my, sy, ?_, ?_, by simp, by simp⟩
        · simp only [itemsGo, hr, h1]
        · have e : i + (d :: ds).length = i + 1 + ds.length := by
            simp [List.length_cons]; omega
          rw [e]
          exact h2

theorem itemsGo_lastAuthor {fetch : String → JournalContent} (xs : List Deviation)
    {i : Nat} {la : Option Author} {ms : List Msg} {st : List Deviation}
    {la' : Option Author} (h : itemsGo fetch i la xs = some (ms, st, la')) :
    la' = runningAuthor la xs := by
  induction xs generalizing i la ms st with
  | nil =>
    simp only [itemsGo, Option.some.injEq, Prod.mk.injEq] at h
    exact h.2.2.symm
  | cons d ds ih =>
    simp only [itemsGo] at h
    split at h
    · cases h
    case h_2 ms0 d0 la0 hr =>
      split at h
      · cases h
      case h_2 ms1 ds1 la1x hgo =>
        simp only [Option.some.injEq, Prod.mk.injEq] at h
        obtain ⟨-, -, rfl⟩ := h
        have : la0 = d.author := (runRecord_spec hr).1
        rw [ih hgo, this]
        rfl

theorem itemsGo_refs {fetch : String → JournalContent} (xs : List Deviation)
    {i : Nat} {la : Option Author} {ms : List Msg} {st : List Deviation}
    {la' : Option Author} (h : itemsGo fetch i la xs = some (ms, st, la')) :
    ∀ m ∈ ms, ∃ r, msgRef m = some r ∧ i ≤ r ∧ r < i + xs.length := by
  induction xs generalizing i la ms st la' with
  | nil =>
    simp only [itemsGo, Option.some.injEq, Prod.mk.injEq] at h
    intro m hm
    rw [← h.1] at hm
    cases hm
  | cons d ds ih =>
    simp only [itemsGo] at h
    split at h
    · cases h
    case h_2 ms0 d0 la0 hr =>
      split at h
      · cases h
      case h_2 ms1 ds1 la1x hgo =>
        simp only [Option.some.injEq, Prod.mk.injEq] at h
        obtain ⟨rfl, -, -⟩ := h
        intro m hm
        rcases List.mem_append.mp hm with h1 | h1
        · obtain ⟨r, hr1, rfl⟩ := (runRecord_spec hr).2.1 m h1
          exact ⟨r, hr1, le_refl r, by simp [List.length_cons]⟩
        · obtain ⟨r, hr1, hr2, hr3⟩ := ih hgo m h1
          exact ⟨r, hr1, by omega, by simp [List.length_cons]; omega⟩

theorem itemsGo_run_urls {fetch : String → JournalContent} (xs : List Deviation)
    {v : Option Author} {i : Nat} {ms : List Msg} {st : List Deviation}
    {la' : Option Author} (hall : ∀ d ∈ xs, d.author = v)
    (h : itemsGo fetch i v xs = some (ms, st, la')) :
    ∀ m ∈ ms, m.isUrl = true := by
  induction xs generalizing i ms st la' with
  | nil =>
    simp only [itemsGo, Option.some.injEq, Prod.mk.injEq] at h
    intro m hm
    exact absurd hm (by rw [← h.1]; simp)
  | cons d ds ih =>
    simp only [itemsGo] at h
    split at h
    · cases h
    case h_2 ms0 d0 la0 hr =>
      split at h
      · cases h
      case h_2 ms1 ds1 la1x hgo =>
        simp only [Option.some.injEq, Prod.mk.injEq] at h
        obtain ⟨rfl, -, -⟩ := h
        have hd : d.author = v := hall d (List.mem_cons_self d ds)
        have hla0 : la0 = v := by rw [(runRecord_spec hr).1, hd]
        rw [hla0] at hgo
        intro m hm
        rcases List.mem_append.mp hm with h1 | h1
        · exact (runRecord_spec hr).2.2.1 (hd.trans rfl) m h1
        · exact ih (fun x hx => hall x (List.mem_cons_of_mem _ hx)) hgo m h1

theorem itemsGo_run_head {fetch : String → JournalContent} {r0 : Deviation}
    {rr : List Deviation} {v la : Option Author} {i : Nat} {ms : List Msg}
    {st : List Deviation} {la' : Option Author}
    (hv0 : r0.author = v) (hall : ∀ d ∈ rr, d.author = v) (hla : v ≠ la)
    (h : itemsGo fetch i la (r0 :: rr) = some (ms, st, la')) :
    ∃ urls, ms = Msg.directory i :: urls ∧ ∀ m ∈ urls, m.isUrl = true := by
  simp only [itemsGo] at h
  split at h
  · cases h
  case h_2 ms0 d0 la0 hr =>
    split at h
    · cases h
    case h_2 ms1 ds1 la1x hgo =>
      simp only [Option.some.injEq, Prod.mk.injEq] at h
      obtain ⟨rfl, -, -⟩ := h
      have hne : r0.author ≠ la := by rw [hv0]; exact hla
      obtain ⟨urls0, rfl, hurls0⟩ := (runRecord_spec hr).2.2.2.1 hne
      have hla0 : la0 = v := by rw [(runRecord_spec hr).1, hv0]
      rw [hla0] at hgo
      have hms1 : ∀ m ∈ ms1, m.isUrl = true := itemsGo_run_urls rr hall hgo
      refine ⟨urls0 ++ ms1, by simp, ?_⟩
      intro m hm
      rcases List.mem_append.mp hm with h1 | h1
      · exact hurls0 m h1
      · exact hms1 m h1

/-- C1 (corrected): runs must be delimited by the RESOLVED author value (the
`author` field when present, the `None` sentinel when absent), and an initial
run of author-less records emits no Directory at all (the sentinel equals the
initial `last_author`).  For every left-maximal run under that definition —
`run` non-empty, every record's author field equal to `v`, and the resolved
author reached after `pre` different from `v` (for empty `pre` this demands
`v ≠ none`) — exactly one Directory message is emitted for the run: it is
the only message of the whole stream that is a Directory carrying a record
reference of the run, and it is followed, up to the end of the run's
messages, only by Url messages of the run, hence it stands immediately
before the first Url message of the run. -/
theorem claim1_directory_per_run (fetch : String → JournalContent)
    (pre run post : List Deviation) (v : Option Author)
    (hsome : (items fetch (pre ++ run ++ post)).isSome = true)
    (hrun : run ≠ []) (hv : ∀ d ∈ run, d.author = v)
    (hb : runningAuthor none pre ≠ v) :
    ∃ msgs store preMs runUrls postMs,
      items fetch (pre ++ run ++ post) = some (msgs, store) ∧
      msgs = Msg.version 1 ::
        (preMs ++ ((Msg.directory pre.length :: runUrls) ++ postMs)) ∧
      (∀ m ∈ preMs, ∃ r, msgRef m = some r ∧ r < pre.length) ∧
      (∀ m ∈ runUrls, m.isUrl = true ∧ ∃ r, msgRef m = some r ∧
        pre.length ≤ r ∧ r < pre.length + run.length) ∧
      (∀ m ∈ postMs, ∃ r, msgRef m = some r ∧ pre.length + run.length ≤ r) := by
  obtain ⟨p, hp⟩ := Option.isSome_iff_exists.mp hsome
  obtain ⟨msgs0, store0⟩ := p
  unfold items at hp
  cases hgo : itemsGo fetch 0 none (pre ++ run ++ post) with
  | none => rw [hgo] at hp; cases hp
  | some r =>
    obtain ⟨ms, st, la⟩ := r
    rw [List.append_assoc] at hgo
    obtain ⟨mx, sx, la1, myz, syz, h1, h2, rfl, rfl⟩ := itemsGo_append pre hgo
    obtain ⟨my, sy, la2, mz, sz, h3, h4, rfl, rfl⟩ := itemsGo_append run h2
    simp only [Nat.zero_add] at h2 h3 h4
    have hla1 : la1 = runningAuthor none pre := itemsGo_lastAuthor pre h1
    cases run with
    | nil => exact absurd rfl hrun
    | cons r0 rr =>
      have hv0 : r0.author = v := hv r0 (List.mem_cons_self r0 rr)
      have hallrr : ∀ d ∈ rr, d.author = v :=
        fun d hd => hv d (List.mem_cons_of_mem _ hd)
      have hne : v ≠ la1 := by
        rw [hla1]
        exact fun he => hb he.symm
      obtain ⟨urls, rfl, hurls⟩ := itemsGo_run_head hv0 hallrr hne h3
      refine ⟨Msg.version 1 :: (mx ++ ((Msg.directory pre.length :: urls) ++ mz)),
        sx ++ (sy ++ sz), mx, urls, mz, ?_, rfl, ?_, ?_, ?_⟩
      · rw [items, List.append_assoc, hgo]
        rfl
      · intro m hm
        obtain ⟨r, hr1, hr2, hr3⟩ := itemsGo_refs pre h1 m hm
        exact ⟨r, hr1, by omega⟩
      · intro m hm
        have hmem : m ∈ Msg.directory pre.length :: urls :=
          List.mem_cons_of_mem _ hm
        obtain ⟨r, hr1, hr2, hr3⟩ := itemsGo_refs (r0 :: rr) h3 m hmem
        exact ⟨hurls m hm, r, hr1, hr2, hr3⟩
      · intro m hm
        obtain ⟨r, hr1, hr2, hr3⟩ := itemsGo_refs post h4 m hm
        exact ⟨r, hr1, hr2⟩

/-- C1 counterexample: a stream consisting of one record with no `author`
field and an image payload.  Its (single, maximal) run of records with
value-equal (placeholder) author mappings emits one Url message but NO
Directory message — `None == None` suppresses the Directory — refuting "each
maximal contiguous run … causes exactly one Directory message … in
particular when the run's records … receive the synthesized empty
placeholder author". -/
theorem claim1_counterexample :
    (items (fun _ => ⟨"", none⟩)
        [{ content := some { src := "s/a.jpg" } }]).map
        (fun p => (p.1.countP Msg.isDir, p.1.countP Msg.isUrl)) =
      some (0, 1) := by decide

/-- C1 witness: a two-author stream `[alice] ++ [bob, bob] ++ []` — the bob
run gets exactly one Directory, at position `pre.length = 1`, followed only
by the run's Url messages. -/
theorem claim1_witness :
    ∃ msgs store preMs runUrls postMs,
      items fetch0 ([devAlice] ++ [devBob1, devBob2] ++ []) =
        some (msgs, store) ∧
      msgs = Msg.version 1 ::
        (preMs ++ ((Msg.directory (List.length [devAlice]) :: runUrls) ++ postMs)) ∧
      (∀ m ∈ preMs, ∃ r, msgRef m = some r ∧ r < List.length [devAlice]) ∧
      (∀ m ∈ runUrls, m.isUrl = true ∧ ∃ r, msgRef m = some r ∧
        List.length [devAlice] ≤ r ∧
        r < List.length [devAlice] + List.length [devBob1, devBob2]) ∧
      (∀ m ∈ postMs, ∃ r, msgRef m = some r ∧
        List.length [devAlice] + List.length [devBob1, devBob2] ≤ r) :=
  claim1_directory_per_run fetch0 [devAlice] [devBob1, devBob2] []
    (some ⟨"bob", "2", "", ""⟩) (by decide) (by decide) (by decide) (by decide)

/-- C9 (confirmed): when the very first record of the stream has no `author`
field, the resolved comparison value (`None`) equals the initial
`last_author` sentinel, so no Directory message is emitted before (or among)
that record's Url messages, even though the record itself receives the
synthesized empty placeholder author mapping. -/
theorem claim9_first_authorless (fetch : String → JournalContent)
    (d : Deviation) (rest : List Deviation)
    (hsome : (items fetch (d :: rest)).isSome = true) (ha : d.author = none) :
    ∃ msgs store ms0 msRest d0 storeRest,
      items fetch (d :: rest) = some (msgs, store) ∧
      msgs = Msg.version 1 :: (ms0 ++ msRest) ∧
      store = d0 :: storeRest ∧
      (∀ m ∈ ms0, m.isUrl = true ∧ msgRef m = some 0) ∧
      (∀ m ∈ msRest, ∃ r, msgRef m = some r ∧ 1 ≤ r) ∧
      d0.author = some emptyAuthor := by
  obtain ⟨p, hp⟩ := Option.isSome_iff_exists.mp hsome
  obtain ⟨msgs0, store0⟩ := p
  unfold items at hp
  cases hgo : itemsGo fetch 0 none (d :: rest) with
  | none => rw [hgo] at hp; cases hp
  | some r =>
    obtain ⟨ms, st, la⟩ := r
    simp only [itemsGo] at hgo
    split at hgo
    · cases hgo
    case h_2 ms0 d0 la0 hr =>
      split at hgo
      · cases hgo
      case h_2 ms1 ds1 la1x hgo2 =>
        simp only [Option.some.injEq, Prod.mk.injEq] at hgo
        obtain ⟨rfl, rfl, rfl⟩ := hgo
        refine ⟨Msg.version 1 :: (ms0 ++ ms1), d0 :: ds1, ms0, ms1, d0, ds1,
          ?_, rfl, rfl, ?_, ?_, (runRecord_spec hr).2.2.2.2 ha⟩
        · rw [items]
          simp only [itemsGo, hr, hgo2]
          rfl
        · intro m hm
          refine ⟨(runRecord_spec hr).2.2.1 ha m hm, ?_⟩
          obtain ⟨rr, hr1, rfl⟩ := (runRecord_spec hr).2.1 m hm
          exact hr1
        · intro m hm
          obtain ⟨rr, hr1, hr2, hr3⟩ := itemsGo_refs rest hgo2 m hm
          exact ⟨rr, hr1, hr2⟩

/-- C9 witness: an author-less first record with an image payload —
you get a Url message for it with no preceding Directory, and its stored
author is the placeholder. -/
theorem claim9_witness :
    ∃ msgs store ms0 msRest d0 storeRest,
      items fetch0 (devAnon :: []) = some (msgs, store) ∧
      msgs = Msg.version 1 :: (ms0 ++ msRest) ∧
      store = d0 :: storeRest ∧
      (∀ m ∈ ms0, m.isUrl = true ∧ msgRef m = some 0) ∧
      (∀ m ∈ msRest, ∃ r, msgRef m = some r ∧ 1 ≤ r) ∧
      d0.author = some emptyAuthor :=
  claim9_first_authorless fetch0 devAnon [] (by decide) rfl

theorem string_append_assoc (a b c : String) : a ++ b ++ c = a ++ (b ++ c) := by
  cases a with
  | mk la =>
    cases b with
    | mk lb =>
      cases c with
      | mk lc => exact congrArg String.mk (List.append_assoc la lb lc)

/-- C8 (confirmed): for a single-record stream whose record carries only an
`excerpt` payload (no content/videos/flash) and has an author, the output is
exactly `Version`, then one `Directory`, then one `Url` whose payload is the
inline `text://` document embedding the escaped title and the fetched
journal HTML verbatim, with the record's extension set to `htm`. -/
theorem claim8_journal_messages (fetch : String → JournalContent)
    (d : Deviation) (a : Author)
    (hprep : (prepare d).isSome = true) (ha : d.author = some a)
    (hc : d.content = none) (hv : d.videos = none) (hf : d.flash = none)
    (he : d.excerpt.isSome = true) :
    ∃ d' : Deviation,
      items fetch [d] =
        some ([Msg.version 1, Msg.directory 0,
               Msg.url (journalFormat (escape d.title) (fetch d.deviationid).html
                 ((fetch d.deviationid).css.getD "")) 0], [d']) ∧
      d'.extension = some "htm" ∧
      (∃ s, journalFormat (escape d.title) (fetch d.deviationid).html
          ((fetch d.deviationid).css.getD "") = "text://" ++ s) ∧
      (∃ s1 s2, journalFormat (escape d.title) (fetch d.deviationid).html
          ((fetch d.deviationid).css.getD "") = s1 ++ (escape d.title ++ s2)) ∧
      (∃ s1 s2, journalFormat (escape d.title) (fetch d.deviationid).html
          ((fetch d.deviationid).css.getD "") =
            s1 ++ ((fetch d.deviationid).html ++ s2)) := by
  obtain ⟨d1, hd1⟩ := Option.isSome_iff_exists.mp hprep
  obtain ⟨iv, rfl⟩ := prepare_shape hd1
  obtain ⟨e, hee⟩ := Option.isSome_iff_exists.mp he
  refine ⟨{ d with stats := none, preview := none, thumbs := none, index := some iv, extension := some "htm" }, ?_, rfl, ⟨_, rfl⟩, ?_, ?_⟩
  · rw [items]
    simp only [itemsGo, runRecord, hd1, payloadSteps, contentStep, videosStep,
      flashStep, excerptStep, resolveAuthor, ha, hc, hv, hf, hee]
    simp
  · exact ⟨"text://" ++ journalHead1,
      journalHead2 ++ (((fetch d.deviationid).css.getD "") ++
        (journalHead3 ++ ((fetch d.deviationid).html ++ journalTail))),
      by simp only [journalFormat, string_append_assoc]⟩
  · exact ⟨"text://" ++ (journalHead1 ++ (escape d.title ++ (journalHead2 ++
      (((fetch d.deviationid).css.getD "") ++ journalHead3)))), journalTail,
      by simp only [journalFormat, string_append_assoc]⟩

/-- C8 witness: the journal scenario evaluated on a concrete record. -/
theorem claim8_witness :
    ∃ d' : Deviation,
      items fetchJ [devJournal] =
        some ([Msg.version 1, Msg.directory 0,
               Msg.url (journalFormat (escape devJournal.title)
                 (fetchJ devJournal.deviationid).html
                 ((fetchJ devJournal.deviationid).css.getD "")) 0], [d']) ∧
      d'.extension = some "htm" ∧
      (∃ s, journalFormat (escape devJournal.title)
          (fetchJ devJournal.deviationid).html
          ((fetchJ devJournal.deviationid).css.getD "") = "text://" ++ s) ∧
      (∃ s1 s2, journalFormat (escape devJournal.title)
          (fetchJ devJournal.deviationid).html
          ((fetchJ devJournal.deviationid).css.getD "") =
            s1 ++ (escape devJournal.title ++ s2)) ∧
      (∃ s1 s2, journalFormat (escape devJournal.title)
          (fetchJ devJournal.deviationid).html
          ((fetchJ devJournal.deviationid).css.getD "") =
            s1 ++ ((fetchJ devJournal.deviationid).html ++ s2)) :=
  claim8_journal_messages fetchJ devJournal ⟨"u", "1", "", ""⟩
    (by decide) rfl rfl rfl rfl rfl

/-- C10 (confirmed): all Url messages of one record reference the same
record dictionary (reference `0` here), and each successive payload commit
(content, then selected video, then flash) overwrites that shared record's
`target` and `extension`, so the final state of the record referenced by ALL
the earlier Url messages carries the LAST (flash) payload's target and
extension. -/
theorem claim10_shared_record (fetch : String → JournalContent)
    (d : Deviation) (a : Author) (tc : Target) (vs : List Target) (v : Target)
    (tf : Target)
    (hprep : (prepare d).isSome = true) (ha : d.author = some a)
    (hc : d.content = some tc) (hv : d.videos = some vs)
    (hsel : selectVideo vs = some v) (hf : d.flash = some tf)
    (he : d.excerpt = none) :
    ∃ d' : Deviation,
      items fetch [d] =
        some ([Msg.version 1, Msg.directory 0, Msg.url tc.src 0,
               Msg.url v.src 0, Msg.url tf.src 0], [d']) ∧
      d'.target = some (nameext_from_url tf.src tf) ∧
      d'.extension = some (nameext_from_url tf.src tf).extension := by
  obtain ⟨d1, hd1⟩ := Option.isSome_iff_exists.mp hprep
  obtain ⟨iv, rfl⟩ := prepare_shape hd1
  refine ⟨{ d with stats := none, preview := none, thumbs := none, index := some iv, target := some (nameext_from_url tf.src tf), extension := some (nameext_from_url tf.src tf).extension }, ?_, rfl, rfl⟩
  rw [items]
  simp only [itemsGo, runRecord, hd1, payloadSteps, contentStep, videosStep,
    flashStep, excerptStep, resolveAuthor, commit, ha, hc, hv, hsel, hf, he]
  simp

/-- C10 witness: the shared-record behaviour on a concrete three-payload
record — the selected video is the 720p one and the final record state
carries the flash target. -/
theorem claim10_witness :
    ∃ d' : Deviation,
      items fetch0 [devMulti] =
        some ([Msg.version 1, Msg.directory 0, Msg.url "s/i.jpg" 0,
               Msg.url "s/v2.mp4" 0, Msg.url "s/f.swf" 0], [d']) ∧
      d'.target = some (nameext_from_url "s/f.swf" { src := "s/f.swf" }) ∧
      d'.extension =
        some (nameext_from_url "s/f.swf" { src := "s/f.swf" }).extension :=
  claim10_shared_record fetch0 devMulti ⟨"u", "1", "", ""⟩
    { src := "s/i.jpg" }
    [{ src := "s/v1.mp4", quality := "480p" }, { src := "s/v2.mp4", quality := "720p" }]
    { src := "s/v2.mp4", quality := "720p" } { src := "s/f.swf" }
    (by decide) rfl rfl rfl (by decide) rfl rfl

/-- C2 (confirmed): three consecutive non-200 responses — any mix of 429 and
other non-200 statuses, which share the single `tries` counter — make
`_call` raise the fatal error carrying the THIRD (last) response body, and
the rest of the script is returned untouched: no fourth HTTP attempt is ever
issued for this logical call. -/
theorem claim2_retry_budget (α : Type) (delay : Nat) (r1 r2 r3 : Rsp α)
    (rest : List (Rsp α)) (h1 : r1.status ≠ 200) (h2 : r2.status ≠ 200)
    (h3 : r3.status ≠ 200) :
    ∃ delay', call α delay (r1 :: r2 :: r3 :: rest) =
      (CallOut.fatal r3.text, delay', rest) := by
  refine ⟨if r3.status = 429 then
    (if r2.status = 429 then (if r1.status = 429 then delay + 1 else 1) + 1 else 1) + 1
    else 1, ?_⟩
  rw [call, callLoop, if_neg h1, if_neg (by omega : ¬1 + 1 > 3),
    callLoop, if_neg h2, if_neg (by omega : ¬2 + 1 > 3),
    callLoop, if_neg h3, if_pos (by omega : 3 + 1 > 3)]

/-- C2 witness: a 429/500/429 script raises the fatal error with the third
body after exactly three attempts. -/
theorem claim2_witness :
    ∃ delay', call Nat 0
      [⟨429, "too many", none⟩, ⟨500, "server error", none⟩, ⟨429, "third body", none⟩] =
      (CallOut.fatal "third body", delay', []) :=
  claim2_retry_budget Nat 0 ⟨429, "too many", none⟩ ⟨500, "server error", none⟩
    ⟨429, "third body", none⟩ [] (by decide) (by decide) (by decide)

/-- C4 (confirmed): over any all-200 well-formed response script, the lazy
sequence yields exactly the concatenation of the `results` lists in server
order, terminating exactly at the first response with `has_more` false
(`done`) or at the first response lacking a `results` key (`softStop`, the
logged soft termination — never the fatal or `KeyError` endings). -/
theorem claim4_pagination (α : Type) (rs : List (Rsp α)) (delay offset : Nat)
    (h200 : ∀ r ∈ rs, r.status = 200)
    (hwf : ∀ r ∈ rs, wfPage (pageOf r)) :
    pagination α delay offset rs =
      (expectedYield α (rs.map pageOf), endOf α (rs.map pageOf)) ∧
    (∀ t, endOf α (rs.map pageOf) ≠ PagEnd.fatalErr t) ∧
    endOf α (rs.map pageOf) ≠ PagEnd.keyError := by
  constructor
  · rw [pagination]
    induction rs generalizing delay offset with
    | nil => simp [paginationGo, expectedYield, endOf]
    | cons r rest ih =>
      have hr : r.status = 200 := h200 r (List.mem_cons_self r rest)
      have hcall : call α delay (r :: rest) =
          (CallOut.ok (pageOf r), delay, rest) := by
        rw [call, callLoop, if_pos hr]
        rfl
      rw [List.length_cons, paginationGo, hcall]
      obtain ⟨hw1, hw2⟩ := hwf r (List.mem_cons_self r rest)
      cases hres : (pageOf r).results with
      | none => simp [List.map_cons, expectedYield, endOf, hres]
      | some xs =>
        have hhm : ((pageOf r).has_more).isSome = true := hw1 (by rw [hres]; rfl)
        obtain ⟨b, hb⟩ := Option.isSome_iff_exists.mp hhm
        cases b with
        | false => simp [List.map_cons, expectedYield, endOf, hres, hb]
        | true =>
          have hno : ((pageOf r).next_offset).isSome = true := hw2 hb
          obtain ⟨no, hnoe⟩ := Option.isSome_iff_exists.mp hno
          have ihr := ih delay no (fun x hx => h200 x (List.mem_cons_of_mem _ hx))
            (fun x hx => hwf x (List.mem_cons_of_mem _ hx))
          simp [List.map_cons, expectedYield, endOf, hres, hb, hnoe, ihr]
  · induction rs with
    | nil => exact ⟨fun t => by simp [endOf], by simp [endOf]⟩
    | cons r rest ih =>
      obtain ⟨hw1, hw2⟩ := hwf r (List.mem_cons_self r rest)
      have ihr := ih (fun x hx => h200 x (List.mem_cons_of_mem _ hx))
        (fun x hx => hwf x (List.mem_cons_of_mem _ hx))
      cases hres : (pageOf r).results with
      | none =>
        exact ⟨fun t => by simp [List.map_cons, endOf, hres],
          by simp [List.map_cons, endOf, hres]⟩
      | some xs =>
        have hhm : ((pageOf r).has_more).isSome = true := hw1 (by rw [hres]; rfl)
        obtain ⟨b, hb⟩ := Option.isSome_iff_exists.mp hhm
        cases b with
        | false =>
          exact ⟨fun t => by simp [List.map_cons, endOf, hres, hb],
            by simp [List.map_cons, endOf, hres, hb]⟩
        | true =>
          exact ⟨fun t => by simpa [List.map_cons, endOf, hres, hb] using ihr.1 t,
            by simpa [List.map_cons, endOf, hres, hb] using ihr.2⟩

/-- C4 witness: the two-page script yields `[1,2,3,4,5]` and ends with
`done`. -/
theorem claim4_witness :
    pagination Nat 0 0 pageScript =
      (expectedYield Nat (pageScript.map pageOf),
       endOf Nat (pageScript.map pageOf)) ∧
    (∀ t, endOf Nat (pageScript.map pageOf) ≠ PagEnd.fatalErr t) ∧
    endOf Nat (pageScript.map pageOf) ≠ PagEnd.keyError :=
  claim4_pagination Nat pageScript 0 0 (by decide) (by decide)

/-- C6 (confirmed, against the spec-modelled cache): a token issued at time
`issued` for a client id is served from the cache — no token request — for
every call up to 3600 seconds after issuance, and is never reused past that
TTL: a call after expiry performs a fresh token request and returns the
newly requested bearer token. -/
theorem claim6_token_ttl (c : TokenCache) (cid v : String) (issued now : Nat)
    (resp : AuthResponse) (hl : c.lookup cid = some (v, issued)) :
    (now ≤ issued + 3600 →
      cachedAuthenticate c cid now resp = Except.ok (v, c, false)) ∧
    (issued + 3600 < now → resp.status = 200 →
      cachedAuthenticate c cid now resp =
        Except.ok ("Bearer " ++ resp.access_token,
          c.store cid ("Bearer " ++ resp.access_token) now, true)) := by
  constructor
  · intro hle
    simp [cachedAuthenticate, hl, hle]
  · intro hgt h200
    have hn : ¬now ≤ issued + 3600 := by omega
    simp [cachedAuthenticate, hl, hn, authenticate_impl, h200]

/-- C6 witness: a cache with a token issued at t=1000 — served at t=4600
(inside the TTL) without a request, freshly requested at t=4601. -/
theorem claim6_witness :
    (1000 + 3600 ≥ 4600 ∧
      cachedAuthenticate ⟨[("5388", "Bearer old", 1000)]⟩ "5388" 4600
          ⟨200, "newtok"⟩ =
        Except.ok ("Bearer old", ⟨[("5388", "Bearer old", 1000)]⟩, false)) ∧
    (1000 + 3600 < 4601 ∧
      cachedAuthenticate ⟨[("5388", "Bearer old", 1000)]⟩ "5388" 4601
          ⟨200, "newtok"⟩ =
        Except.ok ("Bearer newtok",
          TokenCache.store ⟨[("5388", "Bearer old", 1000)]⟩ "5388" "Bearer newtok" 4601,
          true)) :=
  ⟨⟨by omega,
    (claim6_token_ttl ⟨[("5388", "Bearer old", 1000)]⟩ "5388" "Bearer old" 1000 4600
      ⟨200, "newtok"⟩ (by decide)).1 (by omega)⟩,
   ⟨by omega,
    (claim6_token_ttl ⟨[("5388", "Bearer old", 1000)]⟩ "5388" "Bearer old" 1000 4601
      ⟨200, "newtok"⟩ (by decide)).2 (by omega) rfl⟩⟩

theorem find?_first {α : Type} (p : α → Bool) (l : List α) (x : α)
    (h : l.find? p = some x) :
    ∃ l1 l2, l = l1 ++ x :: l2 ∧ p x = true ∧ ∀ g ∈ l1, p g = false := by
  induction l with
  | nil => cases h
  | cons a as ih =>
    cases hpa : p a with
    | true =>
      rw [List.find?_cons, hpa] at h
      obtain rfl : a = x := (Option.some.injEq _ _).mp h
      exact ⟨[], as, rfl, hpa, by simp⟩
    | false =>
      rw [List.find?_cons, hpa] at h
      obtain ⟨l1, l2, rfl, hx, hall⟩ := ih h
      refine ⟨a :: l1, l2, by simp, hx, ?_⟩
      intro g hg
      rcases List.mem_cons.mp hg with rfl | hg2
      · exact hpa
      · exact hall g hg2

theorem matchToks_pointwise (ps : List Char) (cs : List Char)
    (hplain : ∀ c ∈ ps, plainChar c ∨ c = '-')
    (hrel : List.Forall₂
      (fun p c => (p ≠ '-' → c = p) ∧ (p = '-' → c ≠ '\n')) ps cs) :
    matchToks (ps.map (fun c => if c = '-' ∨ c = '.' then PatTok.any else PatTok.lit c))
      cs = true := by
  induction hrel with
  | nil => rfl
  | cons hpc _ ih =>
    rename_i p c ps' cs' hrel'
    have hp := hplain p (List.mem_cons_self p ps')
    by_cases hdash : p = '-'
    · have hc : c ≠ '\n' := hpc.2 hdash
      subst hdash
      simp only [List.map_cons, matchToks]
      rw [if_pos (Or.inl trivial)]
      simp only [Bool.and_eq_true, decide_eq_true_eq]
      exact ⟨by simpa using hc,
        ih (fun x hx => hplain x (List.mem_cons_of_mem _ hx))⟩
    · have hcp : c = p := hpc.1 hdash
      have hdot : ¬p = '.' := by
        rcases hp with hp | hp
        · rcases hp with hp | hp | hp
          · intro he
            rw [he] at hp
            exact absurd hp (by decide)
          · intro he
            rw [he] at hp
            exact absurd hp (by decide)
          · intro he
            rw [he] at hp
            exact absurd hp (by decide)
        · exact absurd hp hdash

      simp only [List.map_cons, matchToks]
      rw [if_neg (by simp [hdash, hdot])]
      simp only [Bool.and_eq_true, decide_eq_true_eq]
      exact ⟨hcp, ih (fun x hx => hplain x (List.mem_cons_of_mem _ hx))⟩

/-- C7 (confirmed, for target names of plain characters and hyphens — the
regime in which the embedded `re` semantics is faithful): the selector
returns `NotFoundError("collection")` exactly when no folder name matches
the compiled pattern; a successful selection returns the FIRST matching
folder, with the shared collection descriptor's title set to that folder's
actual name and that folder's id paginated; and the pattern treats each
literal hyphen of the target as a wildcard for any single (non-newline)
character while every other position must match literally. -/
theorem claim7_favorites_folder (favname : String) (coll : Collection)
    (folders : List Folder)
    (hplain : ∀ c ∈ favname.data, plainChar c ∨ c = '-') :
    (favDeviations favname coll folders = Except.error "collection" ↔
      ∀ f ∈ folders, favMatches favname f = false) ∧
    (∀ c2 fid, favDeviations favname coll folders = Except.ok (c2, fid) →
      ∃ l1 f l2, folders = l1 ++ f :: l2 ∧ favMatches favname f = true ∧
        (∀ g ∈ l1, favMatches favname g = false) ∧
        c2 = { coll with title := f.name } ∧ fid = f.folderid) ∧
    (∀ cs : List Char, List.Forall₂
        (fun p c => (p ≠ '-' → c = p) ∧ (p = '-' → c ≠ '\n'))
        favname.data cs →
      matchToks (compileFav favname) cs = true) := by
  refine ⟨?_, ?_, fun cs hrel => matchToks_pointwise favname.data cs hplain hrel⟩
  · cases hf : folders.find? (fun f => favMatches favname f) with
    | none =>
      simp only [favDeviations, hf]
      constructor
      · intro _ f hmem
        have h2 := List.find?_eq_none.mp hf f hmem
        simpa using h2
      · intro _
        trivial
    | some f =>
      simp only [favDeviations, hf]
      constructor
      · intro he
        simp at he
      · intro hall
        have hmem := List.mem_of_find?_eq_some hf
        have hmatch := List.find?_some hf
        rw [hall f hmem] at hmatch
        exact absurd hmatch (by decide)
  · intro c2 fid hok
    rw [favDeviations] at hok
    cases hf : folders.find? (fun f => favMatches favname f) with
    | none => rw [hf] at hok; cases hok
    | some f =>
      rw [hf] at hok
      simp only [Except.ok.injEq, Prod.mk.injEq] at hok
      obtain ⟨rfl, rfl⟩ := hok
      obtain ⟨l1, l2, rfl, hfm, hall⟩ := find?_first _ folders f hf
      exact ⟨l1, f, l2, rfl, hfm, hall, rfl, rfl⟩

/-- C7 witness: folder selection for the target name "Use-ful" over a
concrete folder list. -/
theorem claim7_witness :
    (favDeviations "Use-ful" favColl favFolders = Except.error "collection" ↔
      ∀ f ∈ favFolders, favMatches "Use-ful" f = false) ∧
    (∀ c2 fid, favDeviations "Use-ful" favColl favFolders = Except.ok (c2, fid) →
      ∃ l1 f l2, favFolders = l1 ++ f :: l2 ∧ favMatches "Use-ful" f = true ∧
        (∀ g ∈ l1, favMatches "Use-ful" g = false) ∧
        c2 = { favColl with title := f.name } ∧ fid = f.folderid) ∧
    (∀ cs : List Char, List.Forall₂
        (fun p c => (p ≠ '-' → c = p) ∧ (p = '-' → c ≠ '\n'))
        "Use-ful".data cs →
      matchToks (compileFav "Use-ful") cs = true) :=
  claim7_favorites_folder "Use-ful" favColl favFolders (by decide)

end Deviantart
